import Mathlib

/-!
Shallow embedding of the `normalizr` text-normalization library
(`normalizr/normalizr.py`) and proofs of its specified properties.

Texts are modelled as lists of characters.  External collaborators
(the stop-word data files read from disk and the opaque email/url/emoji
pattern resources) are modelled as an explicit environment; the Unicode
database (`unicodedata.normalize` / `unicodedata.category`) is modelled
as an explicit table parameter, with a small concrete table covering the
characters used by concrete test inputs.
-/

namespace Normalizr

/-- Texts are lists of characters (Python `str`). -/
abbrev Str := List Char

/-- Python `str.split(sep)` / `str.split()` share this core: split a
character list at every character satisfying `p`, keeping empty fields
(the behavior of Python `split` with an explicit separator). -/
def splitPred (p : Char → Bool) : Str → List Str
  | [] => [[]]
  | c :: rest =>
      let r := splitPred p rest
      if p c then [] :: r
      else (c :: r.headI) :: r.tail

/-- Python `str.split()` with no argument: split on whitespace runs and
discard empty fields. -/
def wordsWs (l : Str) : List Str :=
  (splitPred Char.isWhitespace l).filter (fun w => !w.isEmpty)

/-- Python `' '.join(ws)`. -/
def joinSp : List Str → Str
  | [] => []
  | [w] => w
  | w :: ws => w ++ ' ' :: joinSp ws

/-- Python `str.strip()`: drop leading and trailing whitespace. -/
def pyStrip (s : Str) : Str :=
  ((s.dropWhile Char.isWhitespace).reverse.dropWhile Char.isWhitespace).reverse

/-- Python `str.lower()` (ASCII case folding suffices for our texts). -/
def lowerStr (w : Str) : Str := w.map Char.toLower

/-- Errors surfaced by the normalizer, plus one modelling marker.
`resourceNotFound`: the stop-word resource for the requested language is
missing (`codecs.open` failing in `_load_stop_words`).
`unknownOperation`: a pipeline step name is no attribute of the
normalizer at all, so the `getattr` dispatch at line 89 raises
(the program's `AttributeError`, which the specification names
`UnknownOperationError`).
`typeError`: an operation is invoked without a required argument
(`replace_characters` has no default for `characters`), the program's
`TypeError`.
`nonOperationAttribute` is not a program error but a modelling marker:
the step name resolves via `getattr` to an attribute that is not a
transformation operation (another method, a private field, an inherited
dunder), so the program raises no unknown-operation error at dispatch —
the invocation instead returns a non-string value (such as `None`) or
fails later with a type error, an outcome outside this embedding's
string-pipeline value space; it is represented by this marker so that
it is never conflated with `unknownOperation`.  The one such attribute
whose call is string-valued, the name "normalize", is modelled exactly
(see `applyOp`). -/
inductive NormError
  | resourceNotFound : NormError
  | unknownOperation : String → NormError
  | typeError : NormError
  | nonOperationAttribute : String → NormError
deriving DecidableEq

/-- External collaborators of the normalizer: the language-keyed
stop-word resource files (`data/stop-<language>`, as lists of lines) and
the opaque email/url/emoji pattern substitution functions from
`normalizr.regex` (each takes the replacement and the text). -/
structure Env where
  resources : Str → Option (List Str)
  email_sub : Str → Str → Str
  url_sub : Str → Str → Str
  emoji_sub : Str → Str → Str

/-- The Unicode database used by `remove_accent_marks` and
`replace_symbols`: `unicodedata.normalize(form, text)` and
`unicodedata.category(c)`. -/
structure UnicodeData where
  normalize : String → Str → Str
  category : Char → String

/-- The mutable state of a `Normalizr` instance: the stop-word set
`__stop_words` (a Python set, modelled as an insertion-ordered list
without duplicates — `setAdd` below is `set.add`, so membership,
emptiness and addition behave exactly like the set) and the
character-class cache `__characters_regexes` (an insertion-ordered
mapping from the sorted characters string to the compiled matcher,
modelled by the list of characters the compiled regex `[...]`
matches). -/
structure NormState where
  stop_words : List Str
  characters_regexes : List (Str × Str)
deriving DecidableEq

/-- Python `set.add`: add the element unless it is already present. -/
def setAdd (l : List Str) (w : Str) : List Str :=
  if w ∈ l then l else l ++ [w]

/-- Parse one line of a stop-word file: fields before the first "|",
whitespace-split into words (`_load_stop_words` inner loop). -/
def addLine (sw : List Str) (line : Str) : List Str :=
  (wordsWs (splitPred (· == '|') line).headI).foldl
    (fun acc w => setAdd acc (pyStrip w)) sw

/-- `_load_stop_words`: read the resource for `language` and add every
word to the stop-word set; `none` when the resource file is missing
(Python raises the file-not-found error). -/
def load_stop_words (env : Env) (language : Str) (sw : List Str) :
    Option (List Str) :=
  match env.resources language with
  | none => none
  | some lines => some (lines.foldl addLine sw)

/-- `Normalizr.__init__`: fresh empty stop-word set and cache; when
`lazy_load` is false the stop words are loaded eagerly and a missing
resource fails construction. -/
def init (env : Env) (language : Str) (lazy_load : Bool) :
    Except NormError NormState :=
  let s : NormState := ⟨[], []⟩
  if lazy_load then .ok s
  else
    match load_stop_words env language s.stop_words with
    | none => .error .resourceNotFound
    | some sw => .ok { s with stop_words := sw }

/-- `remove_extra_whitespaces`: `' '.join(text.split())`. -/
def remove_extra_whitespaces (text : Str) : Str :=
  joinSp (wordsWs text)

/-- `remove_stop_words`: lazily load the stop words when the set is
empty, then drop the tokens of `text.split(' ')` whose (optionally
lower-cased) form is in the set and rejoin with single spaces. -/
def remove_stop_words (env : Env) (language : Str) (s : NormState)
    (text : Str) (ignore_case : Bool) : Except NormError (Str × NormState) :=
  match (if s.stop_words = [] then load_stop_words env language s.stop_words
         else some s.stop_words) with
  | none => .error .resourceNotFound
  | some sw =>
      .ok (joinSp ((splitPred (· == ' ') text).filter
              (fun word => !(decide ((if ignore_case then lowerStr word else word) ∈ sw)))),
           { s with stop_words := sw })

/-- `remove_accent_marks`: NFKD-decompose, keep characters that are not
combining marks (category "Mn") or are excluded from removal, then
NFKC-recompose. -/
def remove_accent_marks (ud : UnicodeData) (text : Str)
    (excluded : Finset Char) : Str :=
  ud.normalize "NFKC" ((ud.normalize "NFKD" text).filter
    (fun c => !(decide (ud.category c = "Mn")) || decide (c ∈ excluded)))

/-- Sorting of the characters string, `''.join(sorted(characters))`
(duplicates are kept). -/
def sortChars (characters : Str) : Str :=
  List.insertionSort (· ≤ ·) characters

/-- Lookup in the character-class cache, `characters in
self.__characters_regexes` / `self.__characters_regexes[characters]`. -/
def lookupCache : List (Str × Str) → Str → Option Str
  | [], _ => none
  | (k, v) :: rest, key => if k = key then some v else lookupCache rest key

/-- Semantics of `characters_regex.sub(replacement, text)` for the
compiled character class `[...]` (`re.escape` makes every character
literal, so the compiled regex matches exactly the characters of the
sorted string): replace each matching character by `replacement`. -/
def regexSub (m : Str) (replacement : Str) (text : Str) : Str :=
  text.foldr (fun c acc => if c ∈ m then replacement ++ acc else c :: acc) []

/-- Lines 182-187 of `replace_characters`: canonicalize `characters` by
sorting, reuse the cached compiled matcher for that key or compile and
cache a new one. -/
def compile_characters_regex (s : NormState) (characters : Str) :
    Str × NormState :=
  let key := sortChars characters
  match lookupCache s.characters_regexes key with
  | some m => (m, s)
  | none =>
      (key, { s with characters_regexes := s.characters_regexes ++ [(key, key)] })

/-- `replace_characters`: no-op on an empty characters string, otherwise
substitute every character of `characters` using the cached matcher. -/
def replace_characters (s : NormState) (text : Str) (characters : Str)
    (replacement : Str) : Str × NormState :=
  if characters = [] then (text, s)
  else
    let p := compile_characters_regex s characters
    (regexSub p.1 replacement text, p.2)

/-- `string.punctuation` (the 32 ASCII punctuation characters), the
class attribute `__punctuation`. -/
def punctuation : Str :=
  ['!', '"', '#', '$', '%', '&', '\x27', '(', ')', '*', '+', ',', '-',
   '.', '/', ':', ';', '<', '=', '>', '?', '@', '[', '\\', ']', '^',
   '_', '\x60', '\x7b', '|', '\x7d', '~']

/-- `replace_punctuation`: remove the excluded characters from the
punctuation set and delegate to `replace_characters`. -/
def replace_punctuation (s : NormState) (text : Str) (excluded : Finset Char)
    (replacement : Str) : Str × NormState :=
  replace_characters s text (punctuation.filter (fun c => !(decide (c ∈ excluded))))
    replacement

/-- `replace_hyphens`: `text.replace('-', replacement)`. -/
def replace_hyphens (text : Str) (replacement : Str) : Str :=
  (text.map (fun c => if c = '-' then replacement else [c])).flatten

/-- `replace_symbols`: normalize to the given Unicode form, then map
every character whose category is in {Mn, Sc, Sk, Sm, So} and which is
not excluded to `replacement`. -/
def replace_symbols (ud : UnicodeData) (text : Str) (format : String)
    (excluded : Finset Char) (replacement : Str) : Str :=
  let categories : List String := ["Mn", "Sc", "Sk", "Sm", "So"]
  ((ud.normalize format text).map
    (fun c => if ud.category c ∉ categories ∨ c ∈ excluded then [c]
              else replacement)).flatten

/-- `replace_emails`: `re.sub(regex.EMAIL_REGEX, replacement, text)`,
with the pattern an opaque external resource. -/
def replace_emails (env : Env) (text : Str) (replacement : Str) : Str :=
  env.email_sub replacement text

/-- `replace_emojis`: `regex.EMOJI_REGEX.sub(replacement, text)`. -/
def replace_emojis (env : Env) (text : Str) (replacement : Str) : Str :=
  env.emoji_sub replacement text

/-- `replace_urls`: `re.sub(regex.URL_REGEX, replacement, text)`. -/
def replace_urls (env : Env) (text : Str) (replacement : Str) : Str :=
  env.url_sub replacement text

/-- Per-step keyword options (`**kwargs`): a field is `none` when the
keyword is absent and the operation's own default applies. -/
structure StepOpts where
  ignore_case : Option Bool := none
  excluded : Option (Finset Char) := none
  replacement : Option Str := none
  characters : Option Str := none
  format : Option String := none

/-- A pipeline step: either a bare operation name or an explicit
(name, options) pair. -/
inductive NStep
  | bare : String → NStep
  | withOpts : String → StepOpts → NStep

/-- The name of a pipeline step. -/
def stepName : NStep → String
  | .bare n => n
  | .withOpts n _ => n

/-- `DEFAULT_NORMALIZATIONS`, the module-level default pipeline. -/
def DEFAULT_NORMALIZATIONS : List NStep :=
  [.bare "remove_extra_whitespaces", .bare "replace_punctuation",
   .bare "replace_symbols", .bare "remove_stop_words"]

/-- `_parse_normalizations`: turn each bare name into a (name, empty
options) pair. -/
def parse_normalizations : List NStep → List (String × StepOpts)
  | [] => []
  | .bare n :: rest => (n, {}) :: parse_normalizations rest
  | .withOpts n o :: rest => (n, o) :: parse_normalizations rest

/-- The names of the transformation operations a pipeline step can
resolve to. -/
def knownOps : List String :=
  ["remove_accent_marks", "remove_extra_whitespaces", "remove_stop_words",
   "replace_emails", "replace_emojis", "replace_characters",
   "replace_hyphens", "replace_punctuation", "replace_symbols",
   "replace_urls"]

/-- The attributes of a `Normalizr` instance that are not transformation
operations: the class's other methods, the name-mangled private
attributes, and the attributes inherited from `object`.  `getattr`
resolves every one of these without raising, so a pipeline step with one
of these names does not fail the dispatch at line 89. -/
def otherAttributes : List String :=
  ["normalize", "_parse_normalizations", "_load_stop_words", "_get_logger",
   "_Normalizr__punctuation", "_Normalizr__language", "_Normalizr__logger",
   "_Normalizr__stop_words", "_Normalizr__characters_regexes",
   "__init__", "__class__", "__delattr__", "__dict__", "__dir__", "__doc__",
   "__eq__", "__format__", "__ge__", "__getattribute__", "__gt__",
   "__hash__", "__init_subclass__", "__le__", "__lt__", "__module__",
   "__ne__", "__new__", "__reduce__", "__reduce_ex__", "__repr__",
   "__setattr__", "__sizeof__", "__str__", "__subclasshook__",
   "__weakref__", "__getstate__"]

/-- One dispatch step of `normalize` (line 89): `getattr(self, name)`
followed by the call on the current text with the step's keyword
options.  A transformation-operation name invokes that operation, each
absent keyword falling back to the operation's own default — except that
`replace_characters` has no default for `characters`, so dispatching it
without one is the program's `TypeError`.  `getattr` also resolves the
instance's other attributes (see `otherAttributes`): the name
"normalize" re-enters the dispatcher itself, and with no options this is
`self.normalize(text)`, the default pipeline, inlined here because the
default step names are plain operations; the remaining non-operation
attributes yield no string result and are represented by the
`nonOperationAttribute` marker (see `NormError`).  Only a name that is
no attribute at all fails the lookup, with the unknown-operation error,
leaving the state untouched. -/
def applyOp (env : Env) (ud : UnicodeData) (language : Str) (s : NormState)
    (name : String) (opts : StepOpts) (text : Str) :
    (Except NormError Str) × NormState :=
  match name with
  | "remove_accent_marks" =>
      (.ok (remove_accent_marks ud text (opts.excluded.getD ∅)), s)
  | "remove_extra_whitespaces" => (.ok (remove_extra_whitespaces text), s)
  | "remove_stop_words" =>
      match remove_stop_words env language s text (opts.ignore_case.getD true) with
      | .ok q => (.ok q.1, q.2)
      | .error e => (.error e, s)
  | "replace_emails" => (.ok (replace_emails env text (opts.replacement.getD [])), s)
  | "replace_emojis" => (.ok (replace_emojis env text (opts.replacement.getD [])), s)
  | "replace_characters" =>
      match opts.characters with
      | none => (.error .typeError, s)
      | some cs =>
          let p := replace_characters s text cs (opts.replacement.getD [])
          (.ok p.1, p.2)
  | "replace_hyphens" =>
      (.ok (replace_hyphens text (opts.replacement.getD [' '])), s)
  | "replace_punctuation" =>
      let p := replace_punctuation s text (opts.excluded.getD ∅)
                 (opts.replacement.getD [])
      (.ok p.1, p.2)
  | "replace_symbols" =>
      (.ok (replace_symbols ud text (opts.format.getD "NFKD")
              (opts.excluded.getD ∅) (opts.replacement.getD [])), s)
  | "replace_urls" => (.ok (replace_urls env text (opts.replacement.getD [])), s)
  | other =>
      if other = "normalize" then
        let t1 := remove_extra_whitespaces text
        let p := replace_punctuation s t1 ∅ []
        let t3 := replace_symbols ud p.1 "NFKD" ∅ []
        match remove_stop_words env language p.2 t3 true with
        | .ok q => (.ok q.1, q.2)
        | .error e => (.error e, p.2)
      else if other ∈ otherAttributes then
        (.error (.nonOperationAttribute other), s)
      else (.error (.unknownOperation other), s)

/-- The loop body of `normalize`: apply the parsed steps in order,
feeding each result into the next; an exception aborts the loop, keeping
the state mutations of the already-completed steps. -/
def runSteps (env : Env) (ud : UnicodeData) (language : Str) :
    NormState → Str → List (String × StepOpts) → (Except NormError Str) × NormState
  | s, text, [] => (.ok text, s)
  | s, text, (n, o) :: rest =>
      match applyOp env ud language s n o text with
      | (.ok t, s') => runSteps env ud language s' t rest
      | (.error e, s') => (.error e, s')

/-- `normalize(text, normalizations=None)`: `normalizations or
DEFAULT_NORMALIZATIONS` falls back to the default pipeline when the
argument is `None` or the empty list, then the steps are parsed and run
in order. -/
def normalize (env : Env) (ud : UnicodeData) (language : Str) (s : NormState)
    (text : Str) (normalizations : Option (List NStep)) :
    (Except NormError Str) × NormState :=
  let steps := match normalizations with
    | none => DEFAULT_NORMALIZATIONS
    | some [] => DEFAULT_NORMALIZATIONS
    | some l => l
  runSteps env ud language s text (parse_normalizations steps)

/-- Concrete model of `unicodedata` restricted to the characters used by
the concrete inputs of this development: NFKD decomposes `é` into `e`
followed by the combining acute accent U+0301 (the only character of
category "Mn" here) and NFKC recomposes that pair; all other characters
are unaffected. -/
def nfkdChar (c : Char) : Str :=
  if c = 'é' then ['e', '\u0301'] else [c]

/-- NFKC recomposition for the concrete Unicode model: combine `e`
followed by U+0301 back into `é`. -/
def nfkcRecompose : Str → Str
  | 'e' :: '\u0301' :: rest => 'é' :: nfkcRecompose rest
  | c :: rest => c :: nfkcRecompose rest
  | [] => []

/-- The concrete Unicode table (see `nfkdChar` / `nfkcRecompose`). -/
def udTable : UnicodeData where
  normalize form text :=
    if form = "NFKD" then text.flatMap nfkdChar
    else if form = "NFKC" then nfkcRecompose text
    else text
  category c := if c = '\u0301' then "Mn" else "Ll"

/-! Helper lemmas about splitting and joining. -/

theorem splitPred_cons_pos (p : Char → Bool) (c : Char) (rest : Str)
    (h : p c = true) : splitPred p (c :: rest) = [] :: splitPred p rest := by
  simp [splitPred, h]

theorem splitPred_cons_neg (p : Char → Bool) (c : Char) (rest : Str)
    (h : p c = false) :
    splitPred p (c :: rest) =
      (c :: (splitPred p rest).headI) :: (splitPred p rest).tail := by
  simp [splitPred, h]

theorem splitPred_ne_nil (p : Char → Bool) (l : Str) : splitPred p l ≠ [] := by
  cases l with
  | nil => simp [splitPred]
  | cons c rest =>
      cases h : p c
      · simp [splitPred_cons_neg p c rest h]
      · simp [splitPred_cons_pos p c rest h]

theorem splitPred_eq_cons (p : Char → Bool) (l : Str) :
    ∃ h t, splitPred p l = h :: t := by
  cases hs : splitPred p l with
  | nil => exact absurd hs (splitPred_ne_nil p l)
  | cons x xs => exact ⟨x, xs, rfl⟩

theorem splitPred_append (p : Char → Bool) (w l : Str) {h : Str} {t : List Str}
    (hw : ∀ c ∈ w, p c = false) (hl : splitPred p l = h :: t) :
    splitPred p (w ++ l) = (w ++ h) :: t := by
  induction w with
  | nil => simpa using hl
  | cons c w ih =>
      have hc : p c = false := hw c (by simp)
      have hw' : ∀ c' ∈ w, p c' = false := fun c' hc' => hw c' (by simp [hc'])
      rw [List.cons_append, splitPred_cons_neg p _ _ hc, ih hw']
      simp

theorem mem_splitPred (p : Char → Bool) (l : Str) :
    ∀ w ∈ splitPred p l, ∀ c ∈ w, p c = false := by
  induction l with
  | nil =>
      intro w hw
      simp [splitPred] at hw
      simp [hw]
  | cons a rest ih =>
      intro w hw
      cases h : p a with
      | true =>
          rw [splitPred_cons_pos p a rest h] at hw
          rcases List.mem_cons.1 hw with rfl | hw'
          · simp
          · exact ih w hw'
      | false =>
          obtain ⟨hh, tt, hsplit⟩ := splitPred_eq_cons p rest
          rw [splitPred_cons_neg p a rest h, hsplit] at hw
          simp only [List.headI_cons, List.tail_cons, List.mem_cons] at hw
          rcases hw with rfl | hw
          · intro c hc
            rcases List.mem_cons.1 hc with rfl | hc
            · exact h
            · exact ih hh (by rw [hsplit]; exact List.mem_cons_self hh tt) c hc
          · exact ih w (by rw [hsplit]; exact List.mem_cons_of_mem hh hw)

theorem wordsWs_good (t : Str) :
    ∀ w ∈ wordsWs t, w ≠ [] ∧ ∀ c ∈ w, c.isWhitespace = false := by
  intro w hw
  unfold wordsWs at hw
  rw [List.mem_filter] at hw
  refine ⟨?_, mem_splitPred _ _ w hw.1⟩
  simpa [List.isEmpty_iff] using hw.2

theorem joinSp_cons_cons (w w' : Str) (ws : List Str) :
    joinSp (w :: w' :: ws) = w ++ ' ' :: joinSp (w' :: ws) := rfl

theorem wordsWs_joinSp (ws : List Str)
    (h : ∀ w ∈ ws, w ≠ [] ∧ ∀ c ∈ w, c.isWhitespace = false) :
    wordsWs (joinSp ws) = ws := by
  induction ws with
  | nil => simp [joinSp, wordsWs, splitPred]
  | cons w ws ih =>
      obtain ⟨hne, hfree⟩ := h w (List.mem_cons_self w ws)
      have h' : ∀ w' ∈ ws, w' ≠ [] ∧ ∀ c ∈ w', c.isWhitespace = false :=
        fun w' hw' => h w' (List.mem_cons_of_mem w hw')
      cases ws with
      | nil =>
          have hs : splitPred Char.isWhitespace (w ++ []) = (w ++ []) :: [] :=
            splitPred_append Char.isWhitespace w [] hfree rfl
          rw [List.append_nil] at hs
          show wordsWs w = [w]
          unfold wordsWs
          rw [hs]
          simp [List.isEmpty_iff, hne]
      | cons w' ws' =>
          rw [joinSp_cons_cons]
          have hsp : Char.isWhitespace ' ' = true := by decide
          obtain ⟨hh, tt, hsplit⟩ :=
            splitPred_eq_cons Char.isWhitespace (joinSp (w' :: ws'))
          have hs : splitPred Char.isWhitespace (' ' :: joinSp (w' :: ws')) =
              [] :: splitPred Char.isWhitespace (joinSp (w' :: ws')) :=
            splitPred_cons_pos _ _ _ hsp
          have hmain : splitPred Char.isWhitespace
              (w ++ ' ' :: joinSp (w' :: ws')) =
              (w ++ []) :: splitPred Char.isWhitespace (joinSp (w' :: ws')) := by
            rw [hsplit] at hs ⊢
            exact splitPred_append Char.isWhitespace w _ hfree hs
          unfold wordsWs
          rw [hmain, List.append_nil]
          have ihq := ih h'
          unfold wordsWs at ihq
          simp only [List.filter_cons, List.isEmpty_iff]
          rw [ihq]
          simp [List.isEmpty_iff, hne]

theorem mem_of_head? {x : Char} {l : Str} (h : l.head? = some x) : x ∈ l := by
  cases l with
  | nil => simp at h
  | cons a l =>
      simp only [List.head?_cons, Option.some.injEq] at h
      simp [h]

theorem mem_of_getLast? {x : Char} {l : Str} (h : l.getLast? = some x) : x ∈ l := by
  rcases List.mem_getLast?_eq_getLast (Option.mem_def.2 h) with ⟨hne, rfl⟩
  exact List.getLast_mem hne

theorem chain'_of_no_ws (l : Str) (h : ∀ c ∈ l, c.isWhitespace = false) :
    List.Chain' (fun a b : Char =>
      ¬(a.isWhitespace = true ∧ b.isWhitespace = true)) l := by
  induction l with
  | nil => simp
  | cons a l ih =>
      rw [List.chain'_cons']
      refine ⟨fun y _ => ?_, ih (fun c hc => h c (List.mem_cons_of_mem a hc))⟩
      simp [h a (List.mem_cons_self a l)]

theorem joinSp_ne_nil (w : Str) (ws : List Str) (hne : w ≠ []) :
    joinSp (w :: ws) ≠ [] := by
  cases ws with
  | nil => exact hne
  | cons w' ws' =>
      rw [joinSp_cons_cons]
      simp

theorem joinSp_head? (w : Str) (ws : List Str) (hne : w ≠ []) :
    (joinSp (w :: ws)).head? = w.head? := by
  cases ws with
  | nil => rfl
  | cons w' ws' =>
      rw [joinSp_cons_cons]
      exact List.head?_append_of_ne_nil w hne

theorem joinSp_head?_no_ws (ws : List Str)
    (h : ∀ w ∈ ws, w ≠ [] ∧ ∀ c ∈ w, c.isWhitespace = false) :
    ∀ c : Char, (joinSp ws).head? = some c → c.isWhitespace = false := by
  cases ws with
  | nil =>
      intro c hc
      simp [joinSp] at hc
  | cons w ws =>
      intro c hc
      obtain ⟨hne, hfree⟩ := h w (List.mem_cons_self w ws)
      rw [joinSp_head? w ws hne] at hc
      exact hfree c (mem_of_head? hc)

theorem joinSp_getLast?_no_ws (ws : List Str)
    (h : ∀ w ∈ ws, w ≠ [] ∧ ∀ c ∈ w, c.isWhitespace = false) :
    ∀ c : Char, (joinSp ws).getLast? = some c → c.isWhitespace = false := by
  induction ws with
  | nil =>
      intro c hc
      simp [joinSp] at hc
  | cons w ws ih =>
      intro c hc
      obtain ⟨hne, hfree⟩ := h w (List.mem_cons_self w ws)
      have h' : ∀ w' ∈ ws, w' ≠ [] ∧ ∀ c' ∈ w', c'.isWhitespace = false :=
        fun w' hw' => h w' (List.mem_cons_of_mem w hw')
      cases ws with
      | nil => exact hfree c (mem_of_getLast? hc)
      | cons w' ws' =>
          rw [joinSp_cons_cons,
              @List.getLast?_append_of_ne_nil _ w (' ' :: joinSp (w' :: ws'))
                (by simp)] at hc
          obtain ⟨hne', _⟩ := h' w' (List.mem_cons_self w' ws')
          have hJ : joinSp (w' :: ws') ≠ [] := joinSp_ne_nil w' ws' hne'
          cases hJc : joinSp (w' :: ws') with
          | nil => exact absurd hJc hJ
          | cons j js =>
              rw [hJc, List.getLast?_cons_cons] at hc
              exact ih h' c (by rw [hJc]; exact hc)

theorem joinSp_space_only (ws : List Str)
    (h : ∀ w ∈ ws, ∀ c ∈ w, c.isWhitespace = false) :
    ∀ c ∈ joinSp ws, c.isWhitespace = true → c = ' ' := by
  induction ws with
  | nil => simp [joinSp]
  | cons w ws ih =>
      cases ws with
      | nil =>
          intro c hc hws
          exact absurd hws (by simp [h w (List.mem_cons_self w []) c hc])
      | cons w' ws' =>
          intro c hc hws
          rw [joinSp_cons_cons] at hc
          rcases List.mem_append.1 hc with hc | hc
          · exact absurd hws (by simp [h w (List.mem_cons_self w _) c hc])
          · rcases List.mem_cons.1 hc with rfl | hc
            · rfl
            · exact ih (fun u hu c' hc' => h u (List.mem_cons_of_mem _ hu) c' hc')
                c hc hws

theorem joinSp_chain (ws : List Str)
    (h : ∀ w ∈ ws, w ≠ [] ∧ ∀ c ∈ w, c.isWhitespace = false) :
    List.Chain' (fun a b : Char =>
      ¬(a.isWhitespace = true ∧ b.isWhitespace = true)) (joinSp ws) := by
  induction ws with
  | nil => simp [joinSp]
  | cons w ws ih =>
      obtain ⟨hne, hfree⟩ := h w (List.mem_cons_self w ws)
      have h' : ∀ w' ∈ ws, w' ≠ [] ∧ ∀ c' ∈ w', c'.isWhitespace = false :=
        fun w' hw' => h w' (List.mem_cons_of_mem w hw')
      cases ws with
      | nil => exact chain'_of_no_ws w hfree
      | cons w' ws' =>
          rw [joinSp_cons_cons, List.chain'_append]
          refine ⟨chain'_of_no_ws w hfree, ?_, ?_⟩
          · rw [List.chain'_cons']
            refine ⟨?_, ih h'⟩
            intro y hy
            obtain ⟨hne', hfree'⟩ := h' w' (List.mem_cons_self w' ws')
            rw [joinSp_head? w' ws' hne'] at hy
            simp [hfree' y (mem_of_head? (Option.mem_def.1 hy))]
          · intro x hx y _
            simp [hfree x (mem_of_getLast? (Option.mem_def.1 hx))]

/-! Claim theorems. -/

/-- C6: `remove_extra_whitespaces` is idempotent, and its output
collapses every whitespace run (leading and trailing ones being removed)
to single spaces: the word list is preserved, the only whitespace
character the output contains is a space, no two adjacent output
characters are whitespace, and the output neither starts nor ends with a
whitespace character. -/
theorem remove_extra_whitespaces_idempotent (t : Str) :
    remove_extra_whitespaces (remove_extra_whitespaces t) =
      remove_extra_whitespaces t ∧
    wordsWs (remove_extra_whitespaces t) = wordsWs t ∧
    (∀ c ∈ remove_extra_whitespaces t, c.isWhitespace = true → c = ' ') ∧
    List.Chain' (fun a b : Char =>
      ¬(a.isWhitespace = true ∧ b.isWhitespace = true))
      (remove_extra_whitespaces t) ∧
    (∀ c : Char, (remove_extra_whitespaces t).head? = some c →
      c.isWhitespace = false) ∧
    (∀ c : Char, (remove_extra_whitespaces t).getLast? = some c →
      c.isWhitespace = false) := by
  have hg := wordsWs_good t
  have hws : wordsWs (remove_extra_whitespaces t) = wordsWs t :=
    wordsWs_joinSp _ hg
  refine ⟨?_, hws, joinSp_space_only _ (fun w hw => (hg w hw).2),
    joinSp_chain _ hg, joinSp_head?_no_ws _ hg, joinSp_getLast?_no_ws _ hg⟩
  show joinSp (wordsWs (remove_extra_whitespaces t)) = remove_extra_whitespaces t
  rw [hws]
  rfl

/-- C4: `replace_characters` with an empty characters argument returns
the input text unchanged and leaves the state untouched (a no-op, not an
error). -/
theorem replace_characters_empty_noop (s : NormState) (text replacement : Str) :
    replace_characters s text [] replacement = (text, s) := rfl

/-- C10: calling `normalize` with an explicitly passed empty step list
behaves identically to omitting the argument: `normalizations or
DEFAULT_NORMALIZATIONS` makes the empty list fall back to the default
four-step pipeline rather than applying zero steps. -/
theorem normalize_empty_steps_default (env : Env) (ud : UnicodeData)
    (language : Str) (s : NormState) (text : Str) :
    normalize env ud language s text (some []) =
      normalize env ud language s text none := rfl

/-- C2: with the steps argument omitted, `normalize` applies exactly
`remove_extra_whitespaces`, `replace_punctuation`, `replace_symbols` and
`remove_stop_words`, in that order, each with no options (so each
operation's own defaults apply), feeding each operation's result into
the next and returning the text after the final step, with the state
threaded through the stateful steps. -/
theorem normalize_default_pipeline (env : Env) (ud : UnicodeData)
    (language : Str) (s : NormState) (text : Str) :
    normalize env ud language s text none =
      (let t1 := remove_extra_whitespaces text
       let p := replace_punctuation s t1 ∅ []
       let t3 := replace_symbols ud p.1 "NFKD" ∅ []
       match remove_stop_words env language p.2 t3 true with
       | .ok q => (.ok q.1, q.2)
       | .error e => (.error e, p.2)) := by
  cases h : remove_stop_words env language
      (replace_punctuation s (remove_extra_whitespaces text) ∅ []).2
      (replace_symbols ud
        (replace_punctuation s (remove_extra_whitespaces text) ∅ []).1
        "NFKD" ∅ []) true with
  | ok q =>
      simp [normalize, runSteps, applyOp, parse_normalizations,
        DEFAULT_NORMALIZATIONS, h]
  | error e =>
      simp [normalize, runSteps, applyOp, parse_normalizations,
        DEFAULT_NORMALIZATIONS, h]

/-! State monotonicity. -/

theorem compile_characters_regex_hit (s : NormState) (c m : Str)
    (h : lookupCache s.characters_regexes (sortChars c) = some m) :
    compile_characters_regex s c = (m, s) := by
  simp only [compile_characters_regex, h]

theorem compile_characters_regex_miss (s : NormState) (c : Str)
    (h : lookupCache s.characters_regexes (sortChars c) = none) :
    compile_characters_regex s c = (sortChars c,
      { s with characters_regexes :=
          s.characters_regexes ++ [(sortChars c, sortChars c)] }) := by
  simp only [compile_characters_regex, h]

theorem runSteps_cons_ok (env : Env) (ud : UnicodeData) (language : Str)
    (s : NormState) (text : Str) (n : String) (o : StepOpts)
    (rest : List (String × StepOpts)) (t : Str) (s' : NormState)
    (h : applyOp env ud language s n o text = (.ok t, s')) :
    runSteps env ud language s text ((n, o) :: rest) =
      runSteps env ud language s' t rest := by
  simp only [runSteps, h]

theorem runSteps_cons_error (env : Env) (ud : UnicodeData) (language : Str)
    (s : NormState) (text : Str) (n : String) (o : StepOpts)
    (rest : List (String × StepOpts)) (e : NormError) (s' : NormState)
    (h : applyOp env ud language s n o text = (.error e, s')) :
    runSteps env ud language s text ((n, o) :: rest) = (.error e, s') := by
  simp only [runSteps, h]

/-- Concrete environment used by witnesses: one stop-word file for the
language "en" (with a pipe-delimited metadata field on its single line)
and identity pattern substitutions. -/
def envTest : Env where
  resources lang := if lang = "en".data then some ["the a|article".data] else none
  email_sub _ t := t
  url_sub _ t := t
  emoji_sub _ t := t

/-- Concrete environment with no stop-word resources at all. -/
def envEmpty : Env where
  resources _ := none
  email_sub _ t := t
  url_sub _ t := t
  emoji_sub _ t := t

/-- C3: `remove_stop_words` splits the text on literal single spaces,
drops each token whose lower-cased form (exact form when `ignore_case`
is false) is in the stop-word store, and rejoins the surviving tokens
with single spaces; the surviving tokens are an order-preserving
subsequence of the input tokens; and when the store is empty the call
first performs the lazy load and filters against the loaded store. -/
theorem remove_stop_words_spec (env : Env) (language : Str) (s : NormState)
    (text : Str) (ignore_case : Bool) (sw : List Str)
    (hsw : (s.stop_words = [] ∧
              load_stop_words env language s.stop_words = some sw) ∨
           (s.stop_words ≠ [] ∧ sw = s.stop_words)) :
    remove_stop_words env language s text ignore_case =
      .ok (joinSp ((splitPred (· == ' ') text).filter
            (fun word =>
              !(decide ((if ignore_case then lowerStr word else word) ∈ sw)))),
          { s with stop_words := sw }) ∧
    ((splitPred (· == ' ') text).filter
        (fun word =>
          !(decide ((if ignore_case then lowerStr word else word) ∈ sw)))).Sublist
      (splitPred (· == ' ') text) := by
  refine ⟨?_, List.filter_sublist _⟩
  unfold remove_stop_words
  rcases hsw with ⟨he, hl⟩ | ⟨hne, rfl⟩
  · rw [if_pos he, hl]
  · rw [if_neg hne]

/-- Witness for `remove_stop_words_spec`: lazy load from the concrete
environment, then filtering of a concrete text. -/
theorem remove_stop_words_spec_witness :
    remove_stop_words envTest "en".data ⟨[], []⟩ "the cat sat".data true =
      .ok (joinSp ((splitPred (· == ' ') "the cat sat".data).filter
            (fun word =>
              !(decide ((if true then lowerStr word else word) ∈
                ["the".data, "a".data])))),
          { (⟨[], []⟩ : NormState) with stop_words := ["the".data, "a".data] }) ∧
    (("the cat sat".data |> splitPred (· == ' ')).filter
        (fun word =>
          !(decide ((if true then lowerStr word else word) ∈
            ["the".data, "a".data])))).Sublist
      (splitPred (· == ' ') "the cat sat".data) :=
  remove_stop_words_spec envTest "en".data ⟨[], []⟩ "the cat sat".data true
    ["the".data, "a".data] (Or.inl ⟨rfl, by decide⟩)

/-- C8: when no stop-word resource exists for the requested language,
loading fails with the resource-not-found error — at construction when
loading is eager, and at first use (the `remove_stop_words` call that
triggers the lazy load) when construction was lazy — and the error is
surfaced to the caller rather than retried or swallowed. -/
theorem stop_words_resource_missing (env : Env) (language : Str)
    (h : env.resources language = none) :
    init env language false = .error .resourceNotFound ∧
    init env language true = .ok ⟨[], []⟩ ∧
    (∀ (text : Str) (ic : Bool),
      remove_stop_words env language ⟨[], []⟩ text ic =
        .error .resourceNotFound) := by
  have hl : load_stop_words env language [] = none := by
    unfold load_stop_words
    rw [h]
  refine ⟨?_, rfl, ?_⟩
  · have hinit : init env language false =
        (match load_stop_words env language [] with
         | none => .error .resourceNotFound
         | some sw => .ok { (⟨[], []⟩ : NormState) with stop_words := sw }) := rfl
    rw [hinit, hl]
  · intro text ic
    simp [remove_stop_words, hl]

/-- Witness for `stop_words_resource_missing`: the empty environment has
no resource for language "xx". -/
theorem stop_words_resource_missing_witness :
    envEmpty.resources "xx".data = none ∧
    init envEmpty "xx".data false = .error .resourceNotFound ∧
    init envEmpty "xx".data true = .ok ⟨[], []⟩ ∧
    remove_stop_words envEmpty "xx".data ⟨[], []⟩ "hello".data true =
      .error .resourceNotFound := by
  have h := stop_words_resource_missing envEmpty "xx".data rfl
  exact ⟨rfl, h.1, h.2.1, h.2.2 "hello".data true⟩

/-! Character-class cache. -/

theorem sortChars_eq_of_perm (c1 c2 : Str) (h : c1.Perm c2) :
    sortChars c1 = sortChars c2 := by
  unfold sortChars
  exact List.eq_of_perm_of_sorted
    ((List.perm_insertionSort _ c1).trans
      (h.trans (List.perm_insertionSort _ c2).symm))
    (List.sorted_insertionSort _ c1) (List.sorted_insertionSort _ c2)

theorem lookupCache_cons (k' v' : Str) (rest : List (Str × Str)) (key : Str) :
    lookupCache ((k', v') :: rest) key =
      if k' = key then some v' else lookupCache rest key := rfl

theorem lookupCache_append_self (l : List (Str × Str)) (k v : Str)
    (h : lookupCache l k = none) : lookupCache (l ++ [(k, v)]) k = some v := by
  induction l with
  | nil => simp [lookupCache]
  | cons p rest ih =>
      obtain ⟨k', v'⟩ := p
      rw [lookupCache_cons] at h
      rw [List.cons_append, lookupCache_cons]
      by_cases hk : k' = k
      · rw [if_pos hk] at h
        cases h
      · rw [if_neg hk] at h ⊢
        exact ih h

theorem replace_characters_caches (s : NormState) (text c r : Str)
    (hc : c ≠ []) :
    ∃ m, lookupCache ((replace_characters s text c r).2).characters_regexes
      (sortChars c) = some m := by
  simp only [replace_characters, if_neg hc]
  cases h : lookupCache s.characters_regexes (sortChars c) with
  | some m =>
      rw [compile_characters_regex_hit s c m h]
      exact ⟨m, h⟩
  | none =>
      rw [compile_characters_regex_miss s c h]
      exact ⟨sortChars c, lookupCache_append_self _ _ _ h⟩

theorem replace_characters_cache_hit (s : NormState) (text c r m : Str)
    (hc : c ≠ []) (h : lookupCache s.characters_regexes (sortChars c) = some m) :
    replace_characters s text c r = (regexSub m r text, s) := by
  simp only [replace_characters, if_neg hc]
  rw [compile_characters_regex_hit s c m h]

/-- C5 counterexample: the characters strings "aab" and "ab" denote the
same character set {a, b}, yet the cache key keeps duplicates
(`''.join(sorted(characters))` does not deduplicate), so after a call
with "aab" a second call with "ab" misses the cache and compiles a
second, distinct matcher: the cache ends with two different entries
rather than reusing one matcher object. -/
theorem characters_cache_set_equality_fails :
    (∀ c ∈ "aab".data, c ∈ "ab".data) ∧ (∀ c ∈ "ab".data, c ∈ "aab".data) ∧
    (replace_characters (⟨[], []⟩ : NormState) "x".data "aab".data
        []).2.characters_regexes = [("aab".data, "aab".data)] ∧
    (replace_characters
        ((replace_characters (⟨[], []⟩ : NormState) "x".data "aab".data []).2)
        "x".data "ab".data []).2.characters_regexes =
      [("aab".data, "aab".data), ("ab".data, "ab".data)] := by
  refine ⟨by decide, by decide, by decide, by decide⟩

/-- C5 (amended): two calls to `replace_characters` whose characters
arguments are permutations of each other — equal as multisets, hence
sorting them yields the same canonical key string — use the identical
cached matcher: after the first call the canonical key is in the cache,
and the second call returns the cached matcher's substitution and leaves
the state completely unchanged (no new matcher is compiled); cache-key
equality is exact equality of the sorted characters string. -/
theorem characters_cache_perm_reuse (s : NormState)
    (text1 text2 c1 c2 r1 r2 : Str) (h1 : c1 ≠ []) (hp : c1.Perm c2) :
    ∃ m, lookupCache ((replace_characters s text1 c1 r1).2).characters_regexes
          (sortChars c2) = some m ∧
      replace_characters ((replace_characters s text1 c1 r1).2) text2 c2 r2 =
        (regexSub m r2 text2, (replace_characters s text1 c1 r1).2) := by
  have hc2 : c2 ≠ [] := by
    intro h
    subst h
    exact h1 hp.eq_nil
  have hkey : sortChars c1 = sortChars c2 := sortChars_eq_of_perm c1 c2 hp
  obtain ⟨m, hm⟩ := replace_characters_caches s text1 c1 r1 h1
  rw [hkey] at hm
  exact ⟨m, hm, replace_characters_cache_hit _ text2 c2 r2 m hc2 hm⟩

/-- Witness for `characters_cache_perm_reuse`: the character sets given
as "abc" and "cba". -/
theorem characters_cache_perm_reuse_witness :
    ("abc".data ≠ []) ∧ "abc".data.Perm "cba".data ∧
    ∃ m, lookupCache
          ((replace_characters (⟨[], []⟩ : NormState) "x".data "abc".data
            []).2).characters_regexes (sortChars "cba".data) = some m ∧
      replace_characters
          ((replace_characters (⟨[], []⟩ : NormState) "x".data "abc".data
            []).2) "y".data "cba".data [] =
        (regexSub m [] "y".data,
         (replace_characters (⟨[], []⟩ : NormState) "x".data "abc".data
            []).2) :=
  ⟨by decide, by decide,
   characters_cache_perm_reuse ⟨[], []⟩ "x".data "y".data "abc".data "cba".data
     [] [] (by decide) (by decide)⟩

/-- C7: `remove_accent_marks` NFKD-decomposes the text, drops from the
decomposition exactly the characters of Unicode category "Mn" that are
not excluded, and NFKC-recomposes the kept characters: the kept
characters are an order-preserving subsequence of the decomposition,
every character of the decomposition that is non-"Mn" or excluded is
kept, every kept character is non-"Mn" or excluded; in particular, on
the concrete Unicode table, `remove_accent_marks` maps "café" to
"cafe". -/
theorem remove_accent_marks_spec (ud : UnicodeData) (text : Str)
    (excluded : Finset Char) :
    remove_accent_marks ud text excluded =
      ud.normalize "NFKC" ((ud.normalize "NFKD" text).filter
        (fun c => !(decide (ud.category c = "Mn")) || decide (c ∈ excluded))) ∧
    ((ud.normalize "NFKD" text).filter
        (fun c => !(decide (ud.category c = "Mn")) ||
          decide (c ∈ excluded))).Sublist (ud.normalize "NFKD" text) ∧
    (∀ c ∈ ud.normalize "NFKD" text,
      (ud.category c ≠ "Mn" ∨ c ∈ excluded) →
        c ∈ (ud.normalize "NFKD" text).filter
          (fun c => !(decide (ud.category c = "Mn")) ||
            decide (c ∈ excluded))) ∧
    (∀ c ∈ (ud.normalize "NFKD" text).filter
        (fun c => !(decide (ud.category c = "Mn")) || decide (c ∈ excluded)),
      ud.category c ≠ "Mn" ∨ c ∈ excluded) ∧
    remove_accent_marks udTable "café".data ∅ = "cafe".data := by
  refine ⟨rfl, List.filter_sublist _, ?_, ?_, by decide⟩
  · intro c hc h
    rw [List.mem_filter]
    refine ⟨hc, ?_⟩
    simpa using h
  · intro c hc
    rw [List.mem_filter] at hc
    simpa using hc.2

/-! Unknown-operation dispatch. -/

theorem runSteps_append_ok (env : Env) (ud : UnicodeData) (language : Str)
    (l1 l2 : List (String × StepOpts)) :
    ∀ (s : NormState) (text t' : Str) (s' : NormState),
      runSteps env ud language s text l1 = (.ok t', s') →
      runSteps env ud language s text (l1 ++ l2) =
        runSteps env ud language s' t' l2 := by
  induction l1 with
  | nil =>
      intro s text t' s' hpre
      have hpre' : ((Except.ok text : Except NormError Str), s) = (.ok t', s') :=
        hpre
      injection hpre' with ha hb
      injection ha with ha
      subst ha
      subst hb
      rfl
  | cons p rest ih =>
      intro s text t' s' hpre
      obtain ⟨n, o⟩ := p
      cases happ : applyOp env ud language s n o text with
      | mk r s1 =>
          cases r with
          | ok t =>
              rw [runSteps_cons_ok env ud language s text n o rest t s1 happ]
                at hpre
              rw [List.cons_append,
                  runSteps_cons_ok env ud language s text n o (rest ++ l2) t s1
                    happ]
              exact ih s1 t t' s' hpre
          | error e =>
              rw [runSteps_cons_error env ud language s text n o rest e s1 happ]
                at hpre
              simp at hpre

theorem applyOp_missing (env : Env) (ud : UnicodeData) (language : Str)
    (s : NormState) (name : String) (opts : StepOpts) (text : Str)
    (h1 : name ∉ knownOps) (h2 : name ∉ otherAttributes) :
    applyOp env ud language s name opts text =
      (.error (.unknownOperation name), s) := by
  have hn : name ≠ "normalize" := by
    intro h
    exact h2 (h ▸ (by decide : ("normalize" : String) ∈ otherAttributes))
  unfold applyOp
  split
  all_goals first
  | exact absurd (by decide) h1
  | rw [if_neg hn, if_neg h2]

/-- C1 counterexample: the step name "normalize" does not match any
transformation operation, yet the program does not raise: `getattr`
resolves the `normalize` method itself and `self.normalize(text)` runs
the default pipeline, so the call returns a normalized string and loads
the stop words as a side effect — refuting both halves of the claim (no
unknown-operation error is raised, and the cached/loaded state is
mutated). -/
theorem normalize_unknown_operation_refuted :
    ("normalize" ∉ knownOps) ∧
    (normalize envTest udTable "en".data ⟨[], []⟩ "  Hello   World!  ".data
        (some [NStep.bare "normalize"])).1 = .ok "Hello World".data ∧
    (normalize envTest udTable "en".data ⟨[], []⟩ "  Hello   World!  ".data
        (some [NStep.bare "normalize"])).2.stop_words =
      ["the".data, "a".data] :=
  ⟨by decide, rfl, by decide⟩

/-- C1 (amended): for every text and step list whose parsed steps are a
prefix that completes successfully followed by a step whose name matches
neither a transformation operation nor any other attribute of the
normalizer (so the `getattr` lookup itself fails), `normalize` fails
with the unknown-operation error carrying that name, and the final state
is exactly the state left by the completed prefix: the failing dispatch
mutates neither the stop-word set nor the character-class cache. -/
theorem normalize_unknown_operation (env : Env) (ud : UnicodeData)
    (language : Str) (s : NormState) (text : Str) (steps : List NStep)
    (pre rest : List (String × StepOpts)) (n : String) (o : StepOpts)
    (t' : Str) (s' : NormState)
    (hsplit : parse_normalizations steps = pre ++ (n, o) :: rest)
    (hops : n ∉ knownOps) (hattr : n ∉ otherAttributes)
    (hpre : runSteps env ud language s text pre = (.ok t', s')) :
    normalize env ud language s text (some steps) =
      (.error (.unknownOperation n),
       (runSteps env ud language s text pre).2) := by
  cases steps with
  | nil => simp [parse_normalizations] at hsplit
  | cons a b =>
      have hnorm : normalize env ud language s text (some (a :: b)) =
          runSteps env ud language s text (parse_normalizations (a :: b)) :=
        rfl
      rw [hnorm, hsplit,
          runSteps_append_ok env ud language pre ((n, o) :: rest) s text t' s'
            hpre,
          runSteps_cons_error env ud language s' t' n o rest
            (.unknownOperation n) s'
            (applyOp_missing env ud language s' n o t' hops hattr),
          hpre]

/-- Witness for `normalize_unknown_operation`: a two-step pipeline whose
first step is a real operation and whose second step names "bogus",
which is no attribute of the normalizer. -/
theorem normalize_unknown_operation_witness :
    parse_normalizations
        [NStep.bare "remove_extra_whitespaces", NStep.bare "bogus"] =
      [("remove_extra_whitespaces", ({} : StepOpts))] ++
        [("bogus", ({} : StepOpts))] ∧
    "bogus" ∉ knownOps ∧ "bogus" ∉ otherAttributes ∧
    runSteps envTest udTable "en".data ⟨[], []⟩ "a  b".data
        [("remove_extra_whitespaces", ({} : StepOpts))] =
      (.ok "a b".data, ⟨[], []⟩) ∧
    normalize envTest udTable "en".data ⟨[], []⟩ "a  b".data
        (some [NStep.bare "remove_extra_whitespaces", NStep.bare "bogus"]) =
      (.error (.unknownOperation "bogus"),
       (runSteps envTest udTable "en".data ⟨[], []⟩ "a  b".data
          [("remove_extra_whitespaces", ({} : StepOpts))]).2) :=
  ⟨rfl, by decide, by decide, rfl,
   normalize_unknown_operation envTest udTable "en".data ⟨[], []⟩ "a  b".data
     [NStep.bare "remove_extra_whitespaces", NStep.bare "bogus"]
     [("remove_extra_whitespaces", {})] [] "bogus" {} "a b".data ⟨[], []⟩
     rfl (by decide) (by decide) rfl⟩

end Normalizr
